import Mathlib

/-!
Verification of the portfolio-manager signal-to-order pipeline.

The Python sources (screener.py, mailreader.py, main.py) are shallowly
embedded here: file contents are lists of line strings, Python `set` is
modelled by `Finset` with a canonical (sorted) write order, prices and OHLC
bars are exact rationals, and the pandas indicator computations (ewm mean,
rolling mean/std) are reproduced over `ℚ`.  The brokerage, mailbox and
market-data collaborators are parameters (oracles) of the orchestration
functions, so that each cycle is a pure state transformer.
-/

set_option maxHeartbeats 1000000

namespace PortfolioManager

/-! ## Definitions -/

/-! ### Python string primitives: `str.strip`, `str.split`, truthiness -/

/-- Characters stripped by Python `str.strip()` (whitespace). -/
def wsChar (c : Char) : Bool := c.isWhitespace

/-- The function `stripChars cs` removes leading and trailing whitespace characters,
exactly as Python `str.strip()` does on the character sequence. -/
def stripChars (cs : List Char) : List Char :=
  ((cs.dropWhile wsChar).reverse.dropWhile wsChar).reverse

/-- Embedding of Python `str.strip()`. -/
def strip (s : String) : String := String.mk (stripChars s.toList)

/-- Maximal runs of characters satisfying `p`; the accumulator carries the
current run reversed.  `runsAux p cs []` yields the runs of `cs` in order. -/
def runsAux (p : Char → Bool) : List Char → List Char → List (List Char)
  | [], acc => if acc.isEmpty then [] else [acc.reverse]
  | c :: rest, acc =>
    if p c then runsAux p rest (c :: acc)
    else if acc.isEmpty then runsAux p rest []
    else acc.reverse :: runsAux p rest []

/-- Maximal runs of characters satisfying `p`. -/
def runsBy (p : Char → Bool) (cs : List Char) : List (List Char) := runsAux p cs []

/-- Embedding of Python `str.split()` (no separator argument): the maximal
runs of non-whitespace characters, in order. -/
def tokens (s : String) : List String :=
  (runsBy (fun c => !wsChar c) s.toList).map String.mk

/-- Embedding of Python `needle in hay` on strings (substring containment). -/
def containsSub (hay needle : String) : Bool :=
  decide (needle.toList <:+: hay.toList)

/-- Embedding of Python `str.upper()` (character-wise; the pipeline's
symbols are ASCII). -/
def upper (s : String) : String := String.mk (s.toList.map Char.toUpper)

/-- Embedding of Python `str.lower()` (character-wise). -/
def lower (s : String) : String := String.mk (s.toList.map Char.toLower)

/-! ### Data model

A daily OHLC bar; the market-data client returns bars oldest-to-newest.
Prices are exact rationals (the source manipulates them numerically only
through comparisons, sums and products, which `ℚ` reproduces exactly). -/

structure Bar where
  Open : ℚ
  High : ℚ
  Low : ℚ
  Close : ℚ
deriving DecidableEq, Repr

instance : Inhabited Bar := ⟨⟨0, 0, 0, 0⟩⟩

/-- The `validation_values` dictionary built by
`ScannerProcessor.validate_ema_criteria` (screener.py:421-434).  The `date`
entry is omitted (pure display).  `bb_upper = bb_middle + 2·σ` is irrational
in general, so the dictionary stores the band's middle together with the
sample variance `bb_variance` (σ²); every use of `bb_upper` in the source is
the comparison `Close > bb_upper`, embedded exactly by `aboveUpperBand`. -/
structure ValidationValues where
  ema_21 : ℚ
  ema_100 : ℚ
  bb_middle : ℚ
  bb_variance : ℚ
  current_price : ℚ
  current_open : ℚ
  low_price : ℚ
  bars_since_crossover : Option ℕ
  ema_check : Bool
  bullish_bar : Bool
  above_bb_upper : Bool
deriving DecidableEq, Repr

/-! ### Technical indicators (screener.py:279-367) -/

/-- Smoothing factor of `ewm(span=period)`: α = 2/(period+1). -/
def alphaQ (period : ℕ) : ℚ := 2 / ((period : ℚ) + 1)

/-- Embedding of `Close.ewm(span=period, adjust=False).mean()`: the recurrence
`y₀ = x₀`, `yᵢ = (1−α)·yᵢ₋₁ + α·xᵢ`. -/
def emaList (period : ℕ) : List ℚ → List ℚ
  | [] => []
  | x :: rest => List.scanl (fun prev c => (1 - alphaQ period) * prev + alphaQ period * c) x rest

/-- Embedding of `ScannerProcessor.calculate_ema` (screener.py:279-302): `None` when fewer
than `period` bars are available, otherwise the EMA series of the Close
column.  (The `except` path of the source is unreachable for `period ≥ 1`.) -/
def calculate_ema (df : List Bar) (period : ℕ) : Option (List ℚ) :=
  if df.length < period then none
  else some (emaList period (df.map (fun b => b.Close)))

/-- Last value of the EMA series of `df`'s Close column (the `iloc[-1]`
access in `validate_ema_criteria`). -/
def emaLast (df : List Bar) (period : ℕ) : ℚ :=
  (emaList period (df.map (fun b => b.Close))).getLastD 0

/-- The last `period` Close values of `df` (the final rolling window). -/
def lastWindow (df : List Bar) (period : ℕ) : List ℚ :=
  (df.map (fun b => b.Close)).drop (df.length - period)

/-- Sample variance with `ddof = 1` (the pandas `rolling(...).std()`
default): Σ(x−x̄)² / (n−1); σ is its square root. -/
def sampleVariance (xs : List ℚ) : ℚ :=
  if xs.length ≤ 1 then 0
  else
    let m := xs.sum / (xs.length : ℚ)
    (xs.map (fun x => (x - m) ^ 2)).sum / ((xs.length : ℚ) - 1)

/-- Final-bar values of the Bollinger computation: middle band
(20-period SMA) and sample variance of the window. -/
structure BollingerLast where
  middle : ℚ
  variance : ℚ
deriving DecidableEq, Repr

/-- Embedding of `ScannerProcessor.calculate_bollinger_bands` (screener.py:304-336),
restricted to the final bar, the only one the validator reads
(`bb_bands['upper'].iloc[-1]`, `bb_bands['middle'].iloc[-1]`).  The upper
band is `middle + 2·σ`; it is represented by `(middle, variance)` and used
only through `aboveUpperBand`. -/
def calculate_bollinger_bands (df : List Bar) (period : ℕ) : Option BollingerLast :=
  if df.length < period then none
  else
    let w := lastWindow df period
    some ⟨w.sum / (w.length : ℚ), sampleVariance w⟩

/-- Exact rational encoding of the source comparison
`current_close > bb_upper`, i.e. `close > middle + 2·√variance` (for
nonnegative variance): both sides agree by `aboveUpperBand_iff_real`. -/
def aboveUpperBand (close middle variance : ℚ) : Bool :=
  decide (0 < close - middle ∧ 4 * variance < (close - middle) ^ 2)

/-- The backward scan of `calculate_bars_since_crossover`: the argument is
the `above` series newest-first (so the pair `a :: b :: _` is
`(above[i], above[i-1])`), `k` counts bars already scanned.  Both source
branches (`not above[i-1] and above[i]`, `elif not above[i-1]`) return
`len(above) - i = k + 1`. -/
def crossoverScan : List Bool → ℕ → Option ℕ
  | a :: b :: rest, k =>
    if !b && a then some (k + 1)
    else if !b then some (k + 1)
    else crossoverScan (b :: rest) (k + 1)
  | _, _ => none

/-- Embedding of `ScannerProcessor.calculate_bars_since_crossover` (screener.py:338-367):
`above = ema_21 > ema_100` elementwise; `None` when the final bar is not
above (or the series is empty, where `iloc[-1]` raises into the `except`
branch); otherwise the backward scan, falling back to the full length. -/
def calculate_bars_since_crossover (ema_21 ema_100 : List ℚ) : Option ℕ :=
  let above := List.zipWith (fun a b => decide (b < a)) ema_21 ema_100
  match above.reverse with
  | [] => none
  | last :: olderRev =>
    if last = false then none
    else
      match crossoverScan (last :: olderRev) 0 with
      | some bars => some bars
      | none => some above.length

/-- Index of the first element satisfying `p`. -/
def firstIdx (p : α → Bool) : List α → Option ℕ
  | [] => none
  | a :: l => if p a then some 0 else (firstIdx p l).map (· + 1)

/-- The specified value: scan backward from the most recent bar for a
transition from EMA21 ≤ EMA100 (older bar) to EMA21 > EMA100 (newer bar)
and report the bar distance; if the series is exhausted without finding
one, report the full series length. -/
def barsSinceCrossoverSpec (above : List Bool) : ℕ :=
  match firstIdx (fun p => p.1 && !p.2) (List.zip above.reverse (above.reverse.drop 1)) with
  | some k => k + 1
  | none => above.length

/-! ### The validator (screener.py:369-458) -/

/-- Embedding of `ScannerProcessor.validate_ema_criteria`.  The argument is the result of
`download_historical_data` (`none` on failure or empty frame).  Mirrors the
source: bail out `(False, {})` when the download, either EMA, or the
Bollinger computation is unavailable; otherwise evaluate the three strict
checks on the most recent bar and assemble the values dictionary.
`iloc[-1]` accesses are `getLastD` (the lists are nonempty whenever this
code is reached: length ≥ period ≥ 1). -/
def validate_ema_criteria (hist : Option (List Bar)) : Bool × Option ValidationValues :=
  match hist with
  | none => (false, none)
  | some df =>
    match calculate_ema df 21, calculate_ema df 100 with
    | some ema_21_series, some ema_100_series =>
      match calculate_bollinger_bands df 20 with
      | some bb_bands =>
        let ema_21 := ema_21_series.getLastD 0
        let ema_100 := ema_100_series.getLastD 0
        let bar := df.getLastD default
        let ema_check := decide (ema_100 < ema_21)
        let bullish_bar := decide (bar.Open < bar.Close)
        let above_bb_upper := aboveUpperBand bar.Close bb_bands.middle bb_bands.variance
        let is_valid := ema_check && bullish_bar && above_bb_upper
        let bars_since_crossover :=
          if ema_check then calculate_bars_since_crossover ema_21_series ema_100_series
          else none
        (is_valid,
         some ⟨ema_21, ema_100, bb_bands.middle, bb_bands.variance, bar.Close, bar.Open,
               bar.Low, bars_since_crossover, ema_check, bullish_bar, above_bb_upper⟩)
      | none => (false, none)
    | _, _ => (false, none)

/-- The accept decision alone, written without any reference to
`calculate_bars_since_crossover`: the crossover age is informational. -/
def validationDecision (hist : Option (List Bar)) : Bool :=
  match hist with
  | none => false
  | some df =>
    match calculate_ema df 21, calculate_ema df 100 with
    | some ema_21_series, some ema_100_series =>
      match calculate_bollinger_bands df 20 with
      | some bb_bands =>
        decide (ema_100_series.getLastD 0 < ema_21_series.getLastD 0)
          && decide ((df.getLastD default).Open < (df.getLastD default).Close)
          && aboveUpperBand (df.getLastD default).Close bb_bands.middle bb_bands.variance
      | none => false
    | _, _ => false

/-- The specified acceptance condition, over the reals: EMA(21) > EMA(100),
bullish bar, and Close above the upper Bollinger Band `middle + 2·σ`. -/
def validSpecReal (df : List Bar) : Prop :=
  ((emaLast df 100 : ℚ) : ℝ) < ((emaLast df 21 : ℚ) : ℝ) ∧
  (((df.getLastD default).Open : ℚ) : ℝ) < (((df.getLastD default).Close : ℚ) : ℝ) ∧
  ((((lastWindow df 20).sum / ((lastWindow df 20).length : ℚ) : ℚ) : ℝ)
      + 2 * Real.sqrt ((sampleVariance (lastWindow df 20) : ℚ) : ℝ)
    < (((df.getLastD default).Close : ℚ) : ℝ))

/-! ### Queue store (file-backed symbol lists) -/

/-- Embedding of `update_scanner_file` (screener.py:80-97, identical to
`overwrite_results_file` in mailreader.py:25-46): read the existing lines
stripped into a Python set, union the new tickers, rewrite the whole file.
Python set iteration order is unspecified; the embedding writes the set in
its canonical sorted order, a fixed deterministic choice. -/
def update_scanner_file (content : List String) (tickers : List String) : List String :=
  (((content.map strip).toFinset ∪ tickers.toFinset).sort (· ≤ ·))

/-- Embedding of the method `_remove_ticker_from_scanner` (screener.py:220-235):
keep the lines that are non-blank after stripping and whose first
whitespace-delimited token differs (upper-cased) from the ticker. -/
def remove_ticker_from_scanner (lines : List String) (ticker_to_remove : String) :
    List String :=
  lines.filter (fun line =>
    !(strip line == "")
      && (upper ((tokens (strip line)).getD 0 "") != upper ticker_to_remove))

/-- The removal behaviour exactly as the claim words it: keep every line
whose first whitespace-delimited token does not match case-insensitively
(a blank line has no first token, hence never matches and is kept). -/
def removeSymbolClaim (lines : List String) (symbol : String) : List String :=
  lines.filter (fun line =>
    match (tokens line).head? with
    | some tok => upper tok != upper symbol
    | none => true)

/-- The amended removal behaviour: additionally drop blank lines. -/
def removeSymbolAmended (lines : List String) (symbol : String) : List String :=
  lines.filter (fun line =>
    match (tokens line).head? with
    | some tok => upper tok != upper symbol
    | none => false)

/-- Embedding of `ScannerProcessor.add_to_watchlist` (screener.py:466-478): a no-op when
the symbol is already present (first tokens of the watchlist lines,
upper-cased, via `_load_symbols`), else append one `SYMBOL PRICE` entry.
Entries are `(symbol, price)` pairs; the two-decimal text formatting of the
price is abstracted to the exact rational. -/
def add_to_watchlist (watchlist : List (String × ℚ)) (symbol : String) (low_price : ℚ) :
    List (String × ℚ) :=
  if symbol ∈ watchlist.map (fun e => upper e.1) then watchlist
  else watchlist ++ [(symbol, low_price)]

/-! ### Pipeline state machine (screener.py:149-560) -/

/-- The three queue files owned by one scanner cycle: scanner.txt (raw
lines), watchlist.txt (symbol–price entries) and the loaded open-positions
set (upper-cased first tokens of openpositions.txt, written externally and
read-only here). -/
structure PipelineState where
  scanner : List String
  watchlist : List (String × ℚ)
  open_positions : List String
deriving DecidableEq, Repr

/-- Embedding of `ScannerProcessor.get_first_ticker_from_scanner` (screener.py:192-218).
Iteration runs over the snapshot of the file taken when it was opened
(`todo`), while removals rewrite the file (`file`): skip blank lines, drop
(and remove from the file) any ticker already in open positions, return the
first eligible ticker upper-cased.  (`if not line: continue` followed by
`line.split()[0]` is the `[]` / `tok :: _` split on `tokens (strip line)`:
the token list is empty exactly when the stripped line is, by
`tokens_eq_nil_iff_strip`.) -/
def getFirstAux (open_positions : List String) :
    List String → List String → Option String × List String
  | [], file => (none, file)
  | line :: rest, file =>
    match tokens (strip line) with
    | [] => getFirstAux open_positions rest file
    | tok :: _ =>
      let ticker := upper tok
      if ticker ∈ open_positions then
        getFirstAux open_positions rest (remove_ticker_from_scanner file ticker)
      else (some ticker, file)

/-- Entry point of the snapshot iteration: both the snapshot and the file
start as the current scanner contents. -/
def get_first_ticker_from_scanner (st : PipelineState) : Option String × List String :=
  getFirstAux st.open_positions st.scanner st.scanner

/-- Embedding of `ScannerProcessor.process_next_ticker` (screener.py:480-499).  Here `md` is
the market-data collaborator (`download_historical_data` composed over
yfinance): `none` models a failed or empty download.  The second component
of the result lists the tickers for which a validation (historical-data
fetch) was performed, instrumenting the "no validation call" property. -/
def process_next_ticker (md : String → Option (List Bar)) (st : PipelineState) :
    PipelineState × List String :=
  match get_first_ticker_from_scanner st with
  | (none, file) => ({ st with scanner := file }, [])
  | (some ticker, file) =>
    let result := validate_ema_criteria (md ticker)
    if result.1 then
      let low_price := match result.2 with | some v => v.low_price | none => 0
      ({ scanner := remove_ticker_from_scanner file ticker,
         watchlist := add_to_watchlist st.watchlist ticker low_price,
         open_positions := st.open_positions }, [ticker])
    else
      ({ scanner := remove_ticker_from_scanner file ticker,
         watchlist := st.watchlist,
         open_positions := st.open_positions }, [ticker])

/-- One full `run` cycle (screener.py:517-560): merge the tickers extracted
from email alerts into the scanner queue (`check_email_for_tickers` →
`update_scanner_file`), then process one scanner entry.  The open-positions
snapshot is the state's (external writers are outside the pipeline). -/
def pipelineCycle (md : String → Option (List Bar)) (newTickers : List String)
    (st : PipelineState) : PipelineState :=
  (process_next_ticker md { st with scanner := update_scanner_file st.scanner newTickers }).1

/-- Any finite sequence of pipeline cycles, each with its own market data
and its own batch of alert tickers. -/
def runCycles : List ((String → Option (List Bar)) × List String) → PipelineState → PipelineState
  | [], st => st
  | c :: cs, st => runCycles cs (pipelineCycle c.1 c.2 st)

/-- The post-validation state mutations of a `PROCESS_ONE` cycle, as a
function of the already-computed validation result only: on Valid, append
to the watchlist and remove from the scanner; otherwise just remove from
the scanner.  Open positions are never written. -/
def apply_validation_outcome (st : PipelineState) (ticker : String)
    (result : Bool × Option ValidationValues) : PipelineState :=
  if result.1 then
    { scanner := remove_ticker_from_scanner st.scanner ticker,
      watchlist := add_to_watchlist st.watchlist ticker
        (match result.2 with | some v => v.low_price | none => 0),
      open_positions := st.open_positions }
  else
    { scanner := remove_ticker_from_scanner st.scanner ticker,
      watchlist := st.watchlist,
      open_positions := st.open_positions }

/-! ### Ticker extraction (screener.py:66-77, identical in mailreader.py:10-23) -/

/-- Regex word characters (`\w`): letters, digits, underscore. -/
def isWordChar (c : Char) : Bool := c.isAlphanum || c = '_'

/-- Maximal runs of word characters.  `re.findall(r'\b[A-Z]{1,5}\b', text)`
matches exactly those maximal word-character runs that consist of 1–5
uppercase ASCII letters: `\b` requires a word/non-word boundary on both
sides, so a shorter match inside a longer word run is impossible. -/
def wordRuns (cs : List Char) : List (List Char) := runsBy isWordChar cs

/-- Uppercase ASCII letter (the regex class `[A-Z]`). -/
def isUpperAZ (c : Char) : Bool := 'A' ≤ c && c ≤ 'Z'

/-- A word run matched by `\b[A-Z]{1,5}\b`. -/
def tickerMatches (cs : List Char) : Bool :=
  cs.all isUpperAZ && decide (1 ≤ cs.length) && decide (cs.length ≤ 5)

/-- The `excluded_words` stopword set of the source. -/
def excluded_words : List String :=
  ["ALERT", "NEW", "SYMBOL", "WAS", "ADDED", "TO", "BBAUTO", "FROM", "THE",
   "IN", "AT", "ON", "BY", "FOR", "WITH"]

/-- Embedding of `extract_ticker_symbols` (screener.py:66-77 and mailreader.py:10-23,
byte-identical): empty unless the lowercased text contains "bbauto";
otherwise the regex matches in text order, minus the stopwords — a list,
kept in match order, with duplicates preserved exactly as `re.findall`
returns them. -/
def extract_ticker_symbols (text : String) : List String :=
  if containsSub (lower text) "bbauto" then
    let tickers := ((wordRuns text.toList).filter tickerMatches).map String.mk
    tickers.filter (fun t => !excluded_words.contains t)
  else []

/-- Maximal runs of uppercase letters (what the claim calls the "maximal
1–5-character uppercase-letter tokens of the text"). -/
def upperRuns (cs : List Char) : List (List Char) := runsBy isUpperAZ cs

/-- The reference extraction exactly as the claim words it: for texts
containing "bbauto", the set of maximal uppercase-letter tokens of length
at most 5 (runs are nonempty by construction) minus the stopword set. -/
def extractClaimSpec (text : String) : Finset String :=
  if containsSub (lower text) "bbauto" then
    (((upperRuns text.toList).filter (fun r => decide (r.length ≤ 5))).map String.mk).toFinset
      \ excluded_words.toFinset
  else ∅

/-! ### Order dispatch (main.py:248-345) -/

/-- Outcome of one `client.order_place` call: an HTTP response with a
status code, or a raised transport error (caught by the generic handler). -/
inductive PlaceOutcome where
  | response (status : ℕ)
  | transportError
deriving DecidableEq, Repr

/-- Value of a nonempty digit string. -/
def digitsToNat (cs : List Char) : ℕ :=
  cs.foldl (fun n c => 10 * n + (c.toNat - '0'.toNat)) 0

/-- Embedding of Python `float()` restricted to plain decimal literals
`[+-]?digits[.digits]?` (with at least one digit); these cover every value
the pipeline itself writes (`f"{low_price:.2f}"`).  Anything else models a
raised `ValueError`. -/
def parse_float (s : String) : Option ℚ :=
  let (sign, body) : ℚ × List Char :=
    match s.toList with
    | '+' :: r => ((1 : ℚ), r)
    | '-' :: r => ((-1 : ℚ), r)
    | r => ((1 : ℚ), r)
  let intPart := body.takeWhile Char.isDigit
  let rest := body.dropWhile Char.isDigit
  match rest with
  | [] =>
    if intPart.isEmpty then none
    else some (sign * (digitsToNat intPart : ℚ))
  | '.' :: frac =>
    if frac.all Char.isDigit && !(intPart.isEmpty && frac.isEmpty) then
      some (sign * ((digitsToNat intPart : ℚ)
        + (digitsToNat frac : ℚ) / (10 : ℚ) ^ frac.length))
    else none
  | _ => none

/-- The per-line loop of `process_watchlist_orders` (main.py:298-337).
`place` is the brokerage collaborator.  Blank lines, lines with fewer than
two tokens, and lines whose price raises `ValueError` are skipped with a
log; otherwise exactly one `order_place` call is made, and every outcome
(2xx, non-2xx, raised transport error) just logs and continues.  The
result is the sequence of order attempts actually submitted. -/
def ordersLoop (place : String → ℚ → PlaceOutcome) :
    List String → List ((String × ℚ) × PlaceOutcome)
  | [] => []
  | line :: rest =>
    if strip line = "" then ordersLoop place rest
    else
      match tokens (strip line) with
      | sym :: priceStr :: _ =>
        match parse_float priceStr with
        | some price =>
          ((upper sym, price), place (upper sym) price) :: ordersLoop place rest
        | none => ordersLoop place rest
      | _ => ordersLoop place rest

/-- Embedding of `process_watchlist_orders` (main.py:279-345): read all lines; if none,
return leaving the (already empty) file alone; otherwise run the loop and
truncate the file.  Returns (order attempts, final file contents). -/
def process_watchlist_orders (place : String → ℚ → PlaceOutcome) :
    List String → List ((String × ℚ) × PlaceOutcome) × List String
  | [] => ([], [])
  | line :: rest => (ordersLoop place (line :: rest), [])

/-- A well-formed watchlist entry in the claim's sense: non-blank, at least
two whitespace-delimited tokens, parseable price.  Yields the submitted
(symbol, price) pair. -/
def wellFormedOrder (line : String) : Option (String × ℚ) :=
  let parts := tokens (strip line)
  if 2 ≤ parts.length then
    (parse_float (parts.getD 1 "")).map (fun q => (upper (parts.getD 0 ""), q))
  else none

/-! ## Theorems -/

/-! ### Runs, strip and tokens -/

theorem runsAux_ne_nil (p : Char → Bool) (cs : List Char) (acc : List Char)
    (h : acc ≠ []) : runsAux p cs acc ≠ [] := by
  induction cs generalizing acc with
  | nil => simp [runsAux, List.isEmpty_iff, h]
  | cons c rest ih =>
    by_cases hp : p c
    · simpa [runsAux, hp] using ih (c :: acc) (by simp)
    · simp only [runsAux, hp, if_false, List.isEmpty_iff, h, ite_false]
      exact List.cons_ne_nil _ _

theorem runsAux_all_false (p : Char → Bool) (cs : List Char) (acc : List Char)
    (h : ∀ c ∈ cs, p c = false) : runsAux p cs acc = runsAux p [] acc := by
  induction cs generalizing acc with
  | nil => rfl
  | cons c rest ih =>
    have hc : p c = false := h c (by simp)
    by_cases ha : acc.isEmpty
    · have ha' : acc = [] := by simpa [List.isEmpty_iff] using ha
      simp only [runsAux, hc, Bool.false_eq_true, if_false, ha, if_true]
      rw [ih [] (fun d hd => h d (by simp [hd]))]
      simp [runsAux, ha']
    · have ha' : acc ≠ [] := by simpa [List.isEmpty_iff] using ha
      simp only [runsAux, hc, Bool.false_eq_true, if_false, ha, Bool.false_eq_true]
      rw [ih [] (fun d hd => h d (by simp [hd]))]
      simp [runsAux, ha, List.isEmpty_iff, ha']

theorem runsAux_append_ws (p : Char → Bool) (cs wsl : List Char) (acc : List Char)
    (h : ∀ c ∈ wsl, p c = false) :
    runsAux p (cs ++ wsl) acc = runsAux p cs acc := by
  induction cs generalizing acc with
  | nil =>
    simpa using runsAux_all_false p wsl acc h
  | cons c rest ih =>
    by_cases hp : p c <;> by_cases ha : acc.isEmpty <;>
      simp [runsAux, hp, ha, ih]

theorem runsAux_dropWhile_ws (cs : List Char) :
    runsAux (fun c => !wsChar c) (cs.dropWhile wsChar) []
      = runsAux (fun c => !wsChar c) cs [] := by
  induction cs with
  | nil => rfl
  | cons c rest ih =>
    by_cases hw : wsChar c
    · rw [List.dropWhile_cons_of_pos hw, ih]
      simp [runsAux, hw]
    · rw [List.dropWhile_cons_of_neg hw]

theorem runsBy_stripChars (cs : List Char) :
    runsBy (fun c => !wsChar c) (stripChars cs) = runsBy (fun c => !wsChar c) cs := by
  unfold runsBy stripChars
  set u := cs.dropWhile wsChar with hu
  set A := u.reverse.takeWhile wsChar with hA
  set B := u.reverse.dropWhile wsChar with hB
  have hdecomp : u = B.reverse ++ A.reverse := by
    have h1 : u.reverse = A ++ B := (List.takeWhile_append_dropWhile ..).symm
    calc u = u.reverse.reverse := (List.reverse_reverse u).symm
    _ = (A ++ B).reverse := by rw [h1]
    _ = B.reverse ++ A.reverse := List.reverse_append ..
  have hAws : ∀ c ∈ A.reverse, (fun c => !wsChar c) c = false := by
    intro c hc
    have : c ∈ A := List.mem_reverse.mp hc
    have : wsChar c = true := List.mem_takeWhile_imp this
    simp [this]
  calc runsAux (fun c => !wsChar c) B.reverse []
      = runsAux (fun c => !wsChar c) (B.reverse ++ A.reverse) [] :=
        (runsAux_append_ws _ _ _ _ hAws).symm
    _ = runsAux (fun c => !wsChar c) u [] := by rw [← hdecomp]
    _ = runsAux (fun c => !wsChar c) cs [] := runsAux_dropWhile_ws cs

/-- Stripping commutes away under tokenisation: `line.strip().split() = line.split()`. -/
theorem tokens_strip (s : String) : tokens (strip s) = tokens s := by
  unfold tokens strip
  rw [show (String.mk (stripChars s.toList)).toList = stripChars s.toList from rfl]
  rw [runsBy_stripChars]

theorem runsBy_eq_nil_of_all_false (p : Char → Bool) (cs : List Char)
    (h : ∀ c ∈ cs, p c = false) : runsBy p cs = [] := by
  unfold runsBy
  rw [runsAux_all_false p cs [] h]
  rfl

theorem runsBy_all_false_of_eq_nil (p : Char → Bool) (cs : List Char)
    (h : runsBy p cs = []) : ∀ c ∈ cs, p c = false := by
  induction cs with
  | nil => simp
  | cons c rest ih =>
    intro d hd
    by_cases hp : p c
    · exact absurd h (by
        unfold runsBy runsAux
        simp only [hp, if_true]
        exact runsAux_ne_nil p rest [c] (by simp))
    · have hrest : runsBy p rest = [] := by
        unfold runsBy at h ⊢
        simpa [runsAux, hp] using h
      rcases List.mem_cons.mp hd with rfl | hdr
      · simpa using hp
      · exact ih hrest d hdr

/-- Equality `tokens s = []` holds exactly when the stripped string is empty (Python:
`line.strip()` is falsy iff `line.split()` is empty). -/
theorem tokens_eq_nil_iff_strip (s : String) : tokens s = [] ↔ strip s = "" := by
  constructor
  · intro h
    have hruns : runsBy (fun c => !wsChar c) s.toList = [] := by
      unfold tokens at h
      exact List.map_eq_nil_iff.mp h
    have hall : ∀ c ∈ s.toList, wsChar c = true := by
      intro c hc
      have := runsBy_all_false_of_eq_nil _ _ hruns c hc
      simpa using this
    have hstrip : stripChars s.toList = [] := by
      unfold stripChars
      have h1 : s.toList.dropWhile wsChar = [] :=
        List.dropWhile_eq_nil_iff.mpr (fun x hx => hall x hx)
      rw [h1]
      simp
    unfold strip
    rw [hstrip]
  · intro h
    have : tokens (strip s) = [] := by rw [h]; rfl
    rwa [tokens_strip] at this

theorem dropWhile_idem (p : α → Bool) (l : List α) :
    (l.dropWhile p).dropWhile p = l.dropWhile p := by
  induction l with
  | nil => rfl
  | cons a t ih =>
    by_cases hp : p a
    · rw [List.dropWhile_cons_of_pos hp, ih]
    · rw [List.dropWhile_cons_of_neg hp, List.dropWhile_cons_of_neg hp]

theorem head_false_of_dropWhile_eq (p : α → Bool) (a : α) (l : List α)
    (h : (a :: l).dropWhile p = a :: l) : p a = false := by
  by_cases hp : p a
  · exfalso
    rw [List.dropWhile_cons_of_pos hp] at h
    have hlen := congrArg List.length h
    have hle : (l.dropWhile p).length ≤ l.length :=
      (List.dropWhile_suffix p).sublist.length_le
    simp at hlen
    omega
  · simpa using hp

theorem stripChars_idem (cs : List Char) : stripChars (stripChars cs) = stripChars cs := by
  have hdu : (cs.dropWhile wsChar).dropWhile wsChar = cs.dropWhile wsChar :=
    dropWhile_idem wsChar cs
  have hfront : (stripChars cs).dropWhile wsChar = stripChars cs := by
    cases he : stripChars cs with
    | nil => rfl
    | cons c t =>
      have hsuffix : (cs.dropWhile wsChar).reverse.dropWhile wsChar
          <:+ (cs.dropWhile wsChar).reverse := List.dropWhile_suffix wsChar
      have hpre : stripChars cs <+: cs.dropWhile wsChar := by
        unfold stripChars
        simpa using hsuffix.reverse
      rw [he] at hpre
      rcases hpre with ⟨ext, hext⟩
      have huc : cs.dropWhile wsChar = c :: (t ++ ext) := by
        rw [← hext]
        rfl
      have hwc : wsChar c = false := by
        apply head_false_of_dropWhile_eq wsChar c (t ++ ext)
        rw [← huc]
        exact hdu
      exact List.dropWhile_cons_of_neg (by simp [hwc])
  have hback : (stripChars cs).reverse.dropWhile wsChar = (stripChars cs).reverse := by
    unfold stripChars
    rw [List.reverse_reverse]
    exact dropWhile_idem wsChar _
  calc stripChars (stripChars cs)
      = (((stripChars cs).dropWhile wsChar).reverse.dropWhile wsChar).reverse := rfl
    _ = ((stripChars cs).reverse.dropWhile wsChar).reverse := by rw [hfront]
    _ = ((stripChars cs).reverse).reverse := by rw [hback]
    _ = stripChars cs := List.reverse_reverse _

/-- Python `strip()` is idempotent. -/
theorem strip_idem (s : String) : strip (strip s) = strip s := by
  unfold strip
  rw [show (String.mk (stripChars s.toList)).toList = stripChars s.toList from rfl]
  rw [stripChars_idem]

/-! ### Indicator lemmas -/

theorem sampleVariance_nonneg (xs : List ℚ) : 0 ≤ sampleVariance xs := by
  unfold sampleVariance
  split
  · exact le_refl 0
  · next hlen =>
    have hn : 2 ≤ xs.length := by omega
    apply div_nonneg
    · apply List.sum_nonneg
      intro x hx
      rcases List.mem_map.mp hx with ⟨y, _, rfl⟩
      positivity
    · have h2 : (2 : ℚ) ≤ (xs.length : ℚ) := by exact_mod_cast hn
      linarith

/-- The rational test `aboveUpperBand` decides exactly the real-valued
comparison `close > middle + 2·σ` with `σ = √variance`. -/
theorem aboveUpperBand_iff_real (c m v : ℚ) (hv : 0 ≤ v) :
    aboveUpperBand c m v = true ↔ (m : ℝ) + 2 * Real.sqrt (v : ℝ) < (c : ℝ) := by
  clear hv
  unfold aboveUpperBand
  rw [decide_eq_true_iff]
  constructor
  · rintro ⟨h1, h2⟩
    have h1R : (0 : ℝ) < (c : ℝ) - (m : ℝ) := by exact_mod_cast h1
    have h2R : 4 * (v : ℝ) < ((c : ℝ) - (m : ℝ)) ^ 2 := by exact_mod_cast h2
    have hy : (0 : ℝ) < ((c : ℝ) - (m : ℝ)) / 2 := by linarith
    have hvlt : (v : ℝ) < (((c : ℝ) - (m : ℝ)) / 2) ^ 2 := by
      rw [div_pow, lt_div_iff₀ (by norm_num : (0 : ℝ) < 2 ^ 2)]
      linarith
    have hs := (Real.sqrt_lt' hy).mpr hvlt
    have h2s : 2 * Real.sqrt (v : ℝ) < (c : ℝ) - (m : ℝ) := by
      calc 2 * Real.sqrt (v : ℝ) < 2 * (((c : ℝ) - (m : ℝ)) / 2) :=
            (mul_lt_mul_left (by norm_num : (0 : ℝ) < 2)).mpr hs
        _ = (c : ℝ) - (m : ℝ) := by ring
    linarith
  · intro h
    have hs0 : (0 : ℝ) ≤ Real.sqrt (v : ℝ) := Real.sqrt_nonneg _
    have h1R : (0 : ℝ) < (c : ℝ) - (m : ℝ) := by linarith
    have h1 : (0 : ℚ) < c - m := by exact_mod_cast h1R
    refine ⟨h1, ?_⟩
    have hy : (0 : ℝ) < ((c : ℝ) - (m : ℝ)) / 2 := by linarith
    have hslt : Real.sqrt (v : ℝ) < ((c : ℝ) - (m : ℝ)) / 2 := by linarith
    have hvlt : (v : ℝ) < (((c : ℝ) - (m : ℝ)) / 2) ^ 2 := (Real.sqrt_lt' hy).mp hslt
    have h4 : 4 * (v : ℝ) < ((c : ℝ) - (m : ℝ)) ^ 2 := by
      rw [div_pow, lt_div_iff₀ (by norm_num : (0 : ℝ) < 2 ^ 2)] at hvlt
      linarith
    exact_mod_cast h4

theorem crossoverScan_eq_firstIdx (rest : List Bool) :
    ∀ k, crossoverScan (true :: rest) k
      = (firstIdx (fun p => p.1 && !p.2) (List.zip (true :: rest) rest)).map
          (fun j => j + k + 1) := by
  induction rest with
  | nil => intro k; rfl
  | cons b rest' ih =>
    intro k
    cases b with
    | false =>
      show some (k + 1) = some (0 + k + 1)
      simp only [Option.some.injEq]
      omega
    | true =>
      show crossoverScan (true :: rest') (k + 1)
        = ((firstIdx (fun p => p.1 && !p.2) (List.zip (true :: rest') rest')).map
            (· + 1)).map (fun j => j + k + 1)
      rw [ih (k + 1), Option.map_map]
      cases firstIdx (fun p => p.1 && !p.2) (List.zip (true :: rest') rest') with
      | none => rfl
      | some j =>
        show some (j + (k + 1) + 1) = some (j + 1 + k + 1)
        simp only [Option.some.injEq]
        omega

/-- The backward scan agrees with the specified "most recent transition"
reading whenever the newest value is `true`: the merged source branches
return at the first older-bar `false`, whose newer neighbour is then
necessarily `true` (all bars scanned past were `true`), i.e. a transition. -/
theorem barsScan_spec (above : List Bool) (h : above.getLast? = some true) :
    (match above.reverse with
     | [] => none
     | last :: olderRev =>
       if last = false then none
       else
         match crossoverScan (last :: olderRev) 0 with
         | some bars => some bars
         | none => some above.length)
      = some (barsSinceCrossoverSpec above) := by
  have hhead : above.reverse.head? = some true := by
    rw [List.head?_reverse]
    exact h
  cases hrev : above.reverse with
  | nil => rw [hrev] at hhead; cases hhead
  | cons last olderRev =>
    have hlast : last = true := by
      rw [hrev] at hhead
      exact (Option.some.inj hhead)
    subst hlast
    have hspec : barsSinceCrossoverSpec above
        = match firstIdx (fun p => p.1 && !p.2) (List.zip (true :: olderRev) olderRev) with
          | some k => k + 1
          | none => above.length := by
      unfold barsSinceCrossoverSpec
      rw [hrev]
      rfl
    rw [hspec]
    show (match crossoverScan (true :: olderRev) 0 with
          | some bars => some bars
          | none => some above.length)
        = some (match firstIdx (fun p => p.1 && !p.2)
                  (List.zip (true :: olderRev) olderRev) with
                | some k => k + 1
                | none => above.length)
    rw [crossoverScan_eq_firstIdx olderRev 0]
    cases firstIdx (fun p => p.1 && !p.2) (List.zip (true :: olderRev) olderRev) with
    | none => rfl
    | some k => rfl

/-! ### Claim C4 -/

/-- Claim C4: for every fetched history with fewer than 100 bars (the
longer EMA period), validation returns the rejected/data-unavailable
outcome `(False, {})` — never Valid — regardless of every other metric. -/
theorem validate_ema_criteria_insufficient_history (df : List Bar)
    (h : df.length < 100) :
    validate_ema_criteria (some df) = (false, none) := by
  have h100 : calculate_ema df 100 = none := by
    unfold calculate_ema
    rw [if_pos h]
  cases h21 : calculate_ema df 21 with
  | none => simp [validate_ema_criteria, h21, h100]
  | some s => simp [validate_ema_criteria, h21, h100]

/-- Witness for C4 at the concrete empty history. -/
theorem validate_ema_criteria_insufficient_history_witness :
    ([] : List Bar).length < 100 ∧
    validate_ema_criteria (some ([] : List Bar)) = (false, none) :=
  ⟨by decide, validate_ema_criteria_insufficient_history [] (by decide)⟩

/-! ### Claim C3 -/

/-- Claim C3: for every symbol whose fetched history has at least 100 bars,
validation returns Valid iff on the most recent bar all three strict checks
hold — EMA(21) > EMA(100), Close > Open, Close > upper Bollinger Band
(middle + 2·σ over the reals) — and the values dictionary attaches the
current bar's Low as the limit price (`process_next_ticker` passes exactly
this `low_price` to `add_to_watchlist`, see the C10 factoring theorem). -/
theorem validate_ema_criteria_valid_iff (df : List Bar) (h : 100 ≤ df.length) :
    ((validate_ema_criteria (some df)).1 = true ↔ validSpecReal df) ∧
    (∀ m, (validate_ema_criteria (some df)).2 = some m →
      m.low_price = (df.getLastD default).Low) := by
  have h21 : calculate_ema df 21
      = some (emaList 21 (df.map (fun b => b.Close))) := by
    unfold calculate_ema
    rw [if_neg (by omega)]
  have h100 : calculate_ema df 100
      = some (emaList 100 (df.map (fun b => b.Close))) := by
    unfold calculate_ema
    rw [if_neg (by omega)]
  have hbb : calculate_bollinger_bands df 20
      = some ⟨(lastWindow df 20).sum / ((lastWindow df 20).length : ℚ),
              sampleVariance (lastWindow df 20)⟩ := by
    unfold calculate_bollinger_bands
    rw [if_neg (by omega)]
  constructor
  · have hfst : (validate_ema_criteria (some df)).1
        = (decide (emaLast df 100 < emaLast df 21)
           && decide ((df.getLastD default).Open < (df.getLastD default).Close)
           && aboveUpperBand (df.getLastD default).Close
                ((lastWindow df 20).sum / ((lastWindow df 20).length : ℚ))
                (sampleVariance (lastWindow df 20))) := by
      simp only [validate_ema_criteria, h21, h100, hbb]
      rfl
    rw [hfst, Bool.and_eq_true, Bool.and_eq_true, decide_eq_true_eq, decide_eq_true_eq,
      aboveUpperBand_iff_real _ _ _ (sampleVariance_nonneg _)]
    unfold validSpecReal
    constructor
    · rintro ⟨⟨h1, h2⟩, h3⟩
      exact ⟨by exact_mod_cast h1, by exact_mod_cast h2, h3⟩
    · rintro ⟨h1, h2, h3⟩
      exact ⟨⟨by exact_mod_cast h1, by exact_mod_cast h2⟩, h3⟩
  · have hlow : ((validate_ema_criteria (some df)).2).map (fun v => v.low_price)
        = some ((df.getLastD default).Low) := by
      simp only [validate_ema_criteria, h21, h100, hbb]
      rfl
    intro m hm
    rw [hm] at hlow
    exact Option.some.inj hlow

/-- Witness for C3 at a concrete 100-bar history. -/
theorem validate_ema_criteria_valid_iff_witness :
    100 ≤ (List.replicate 100 (⟨1, 1, 1, 1⟩ : Bar)).length ∧
    (((validate_ema_criteria (some (List.replicate 100 (⟨1, 1, 1, 1⟩ : Bar)))).1 = true
        ↔ validSpecReal (List.replicate 100 (⟨1, 1, 1, 1⟩ : Bar))) ∧
      (∀ m, (validate_ema_criteria
            (some (List.replicate 100 (⟨1, 1, 1, 1⟩ : Bar)))).2 = some m →
        m.low_price = ((List.replicate 100 (⟨1, 1, 1, 1⟩ : Bar)).getLastD default).Low)) :=
  ⟨by decide, validate_ema_criteria_valid_iff _ (by decide)⟩

/-! ### Claim C9 -/

/-- Claim C9: whenever the final bar has EMA(21) > EMA(100), the computed
bars-since-crossover equals the bar distance back to the most recent
transition from EMA21 ≤ EMA100 to EMA21 > EMA100 — or the full series
length when the series is exhausted without one — and the crossover age has
no effect on the accept decision: the decision equals `validationDecision`,
which never mentions `calculate_bars_since_crossover`. -/
theorem calculate_bars_since_crossover_correct (ema_21 ema_100 : List ℚ)
    (hist : Option (List Bar))
    (h : (List.zipWith (fun a b => decide (b < a)) ema_21 ema_100).getLast? = some true) :
    calculate_bars_since_crossover ema_21 ema_100
      = some (barsSinceCrossoverSpec
          (List.zipWith (fun a b => decide (b < a)) ema_21 ema_100)) ∧
    (validate_ema_criteria hist).1 = validationDecision hist := by
  constructor
  · exact barsScan_spec (List.zipWith (fun a b => decide (b < a)) ema_21 ema_100) h
  · cases hist with
    | none => rfl
    | some df =>
      cases h21 : calculate_ema df 21 with
      | none => simp [validate_ema_criteria, validationDecision, h21]
      | some s21 =>
        cases h100 : calculate_ema df 100 with
        | none => simp [validate_ema_criteria, validationDecision, h21, h100]
        | some s100 =>
          cases hbb : calculate_bollinger_bands df 20 with
          | none => simp [validate_ema_criteria, validationDecision, h21, h100, hbb]
          | some bb => simp [validate_ema_criteria, validationDecision, h21, h100, hbb]

/-- Witness for C9 at a concrete crossing pair of EMA series. -/
theorem calculate_bars_since_crossover_correct_witness :
    (List.zipWith (fun a b => decide (b < a)) [(1 : ℚ), 2] [(1 : ℚ), 1]).getLast?
        = some true ∧
    (calculate_bars_since_crossover [(1 : ℚ), 2] [(1 : ℚ), 1]
        = some (barsSinceCrossoverSpec
            (List.zipWith (fun a b => decide (b < a)) [(1 : ℚ), 2] [(1 : ℚ), 1])) ∧
      (validate_ema_criteria none).1 = validationDecision none) :=
  ⟨by decide, calculate_bars_since_crossover_correct [(1 : ℚ), 2] [(1 : ℚ), 1] none (by decide)⟩

/-! ### Claim C5 -/

/-- Claim C5: with scanner queue `["AAPL"]` and open positions `{"AAPL"}`,
one `PROCESS_ONE` cycle leaves the scanner queue empty and the watchlist
empty, and performs no validation call — the instrumentation list of
validated tickers is `[]` for every market-data collaborator `md`. -/
theorem process_next_ticker_open_position_scenario (md : String → Option (List Bar)) :
    process_next_ticker md ⟨["AAPL"], [], ["AAPL"]⟩
      = (⟨[], [], ["AAPL"]⟩, []) := by
  have hg : get_first_ticker_from_scanner ⟨["AAPL"], [], ["AAPL"]⟩ = (none, []) := by
    decide
  unfold process_next_ticker
  rw [hg]

/-! ### Claim C10 -/

/-- Claim C10: validation is read-only with respect to queue state.  A
`PROCESS_ONE` cycle factors as: (selection phase, touching only the
scanner file) then a validation that is a pure function of the fetched
market data `md ticker` alone, then `apply_validation_outcome`, which
performs the watchlist append and scanner removal on the post-selection
state using only the returned validation result; open positions are never
written. -/
theorem validation_read_only_factoring (md : String → Option (List Bar))
    (st : PipelineState) :
    (process_next_ticker md st
      = match get_first_ticker_from_scanner st with
        | (none, file) => ({ st with scanner := file }, [])
        | (some ticker, file) =>
          (apply_validation_outcome { st with scanner := file } ticker
             (validate_ema_criteria (md ticker)), [ticker])) ∧
    (process_next_ticker md st).1.open_positions = st.open_positions := by
  have hfact : process_next_ticker md st
      = match get_first_ticker_from_scanner st with
        | (none, file) => ({ st with scanner := file }, [])
        | (some ticker, file) =>
          (apply_validation_outcome { st with scanner := file } ticker
             (validate_ema_criteria (md ticker)), [ticker]) := by
    unfold process_next_ticker apply_validation_outcome
    rcases hg : get_first_ticker_from_scanner st with ⟨t?, file⟩
    cases t? with
    | none => rfl
    | some t =>
      by_cases hvalid : (validate_ema_criteria (md t)).1
      · simp only [hvalid, if_true]
      · simp only [hvalid, if_false, Bool.false_eq_true]
  refine ⟨hfact, ?_⟩
  rw [hfact]
  rcases get_first_ticker_from_scanner st with ⟨t?, file⟩
  cases t? with
  | none => rfl
  | some t =>
    show (apply_validation_outcome _ t _).open_positions = st.open_positions
    unfold apply_validation_outcome
    by_cases hvalid : (validate_ema_criteria (md t)).1
    · simp only [hvalid, if_true]
    · simp only [hvalid, if_false, Bool.false_eq_true]

/-! ### Claim C1 -/

theorem getFirstAux_some_not_open (op : List String) (todo : List String) :
    ∀ (file : List String) (t : String) (f : List String),
      getFirstAux op todo file = (some t, f) → t ∉ op := by
  induction todo with
  | nil =>
    intro file t f hcontra
    exact absurd hcontra (by simp [getFirstAux])
  | cons line rest ih =>
    intro file t f heq
    unfold getFirstAux at heq
    cases htok : tokens (strip line) with
    | nil =>
      rw [htok] at heq
      exact ih _ _ _ heq
    | cons tok more =>
      rw [htok] at heq
      have heq' : (if upper tok ∈ op then
            getFirstAux op rest (remove_ticker_from_scanner file (upper tok))
          else (some (upper tok), file)) = (some t, f) := heq
      by_cases hmem : upper tok ∈ op
      · rw [if_pos hmem] at heq'
        exact ih _ _ _ heq'
      · rw [if_neg hmem] at heq'
        have h1 : some (upper tok) = some t := congrArg Prod.fst heq'
        have h2 : upper tok = t := Option.some.inj h1
        rwa [h2] at hmem

theorem process_next_ticker_preserves_disjoint (md : String → Option (List Bar))
    (st : PipelineState)
    (h : ∀ p ∈ st.watchlist, p.1 ∉ st.open_positions) :
    ∀ p ∈ (process_next_ticker md st).1.watchlist,
      p.1 ∉ (process_next_ticker md st).1.open_positions := by
  unfold process_next_ticker
  rcases hg : get_first_ticker_from_scanner st with ⟨t?, file⟩
  cases t? with
  | none => simpa using h
  | some t =>
    have ht : t ∉ st.open_positions := by
      unfold get_first_ticker_from_scanner at hg
      exact getFirstAux_some_not_open _ _ _ _ _ hg
    by_cases hvalid : (validate_ema_criteria (md t)).1
    · simp only [hvalid, if_true]
      intro p hp
      unfold add_to_watchlist at hp
      split at hp
      · exact h p hp
      · rcases List.mem_append.mp hp with hold | hnew
        · exact h p hold
        · have : p = (t, _) := List.mem_singleton.mp hnew
          rw [this]
          exact ht
    · simp only [hvalid, if_false, Bool.false_eq_true]
      exact h

theorem pipelineCycle_preserves_disjoint (md : String → Option (List Bar))
    (newTickers : List String) (st : PipelineState)
    (h : ∀ p ∈ st.watchlist, p.1 ∉ st.open_positions) :
    ∀ p ∈ (pipelineCycle md newTickers st).watchlist,
      p.1 ∉ (pipelineCycle md newTickers st).open_positions := by
  unfold pipelineCycle
  exact process_next_ticker_preserves_disjoint md
    { st with scanner := update_scanner_file st.scanner newTickers } h

/-- Claim C1: a symbol in the open-positions set is never present in the
watchlist, after any number of pipeline cycles: the orchestrator drops
open-position entries from the scanner without validating them, and only
tickers not in open positions are ever appended to the watchlist, so the
disjointness invariant is preserved by every cycle (each cycle merging its
alert tickers and processing one scanner entry). -/
theorem watchlist_open_positions_disjoint
    (cycles : List ((String → Option (List Bar)) × List String))
    (st : PipelineState)
    (h : ∀ p ∈ st.watchlist, p.1 ∉ st.open_positions) :
    ∀ p ∈ (runCycles cycles st).watchlist,
      p.1 ∉ (runCycles cycles st).open_positions := by
  induction cycles generalizing st with
  | nil => simpa [runCycles] using h
  | cons c cs ih =>
    unfold runCycles
    exact ih _ (pipelineCycle_preserves_disjoint c.1 c.2 st h)

/-- Witness for C1: one cycle receiving the alert "AAPL" while "AAPL" is an
open position, starting from an empty watchlist. -/
theorem watchlist_open_positions_disjoint_witness :
    (∀ p ∈ (⟨[], [], ["AAPL"]⟩ : PipelineState).watchlist,
        p.1 ∉ (⟨[], [], ["AAPL"]⟩ : PipelineState).open_positions) ∧
    (∀ p ∈ (runCycles [(fun _ => none, ["AAPL"])]
          (⟨[], [], ["AAPL"]⟩ : PipelineState)).watchlist,
        p.1 ∉ (runCycles [(fun _ => none, ["AAPL"])]
          (⟨[], [], ["AAPL"]⟩ : PipelineState)).open_positions) :=
  ⟨by simp, watchlist_open_positions_disjoint _ _ (by simp)⟩

/-! ### Claim C2 -/

/-- Counterexample to C2 as stated: a watchlist file with the single
(non-blank) entry `"AAPL abc"` — a malformed price — produces zero order
attempts, not one: `float("abc")` raises before `order_place` is reached,
so the entry is skipped without any attempt. -/
theorem process_watchlist_orders_counterexample :
    (process_watchlist_orders (fun _ _ => PlaceOutcome.response 200) ["AAPL abc"]).1.length
        = 0 ∧
    (["AAPL abc"].filter (fun l => !(strip l == ""))).length = 1 ∧
    (process_watchlist_orders (fun _ _ => PlaceOutcome.response 200) ["AAPL abc"]).1.length
      ≠ (["AAPL abc"].filter (fun l => !(strip l == ""))).length := by
  decide

/-- Claim C2 (amended): one dispatch sweep submits exactly one order per
well-formed entry (non-blank, ≥ 2 tokens, parseable price) — in file
order, each entry attempted at most once regardless of the order outcome
(2xx, non-2xx, or transport error) — blank and malformed lines get zero
attempts, and after the sweep the watchlist file is empty. -/
theorem process_watchlist_orders_amended (place : String → ℚ → PlaceOutcome)
    (lines : List String) :
    (process_watchlist_orders place lines).1
      = lines.filterMap (fun l => (wellFormedOrder l).map (fun sp => (sp, place sp.1 sp.2))) ∧
    (process_watchlist_orders place lines).2 = [] := by
  have hloop : ∀ ls : List String, ordersLoop place ls
      = ls.filterMap (fun l => (wellFormedOrder l).map (fun sp => (sp, place sp.1 sp.2))) := by
    intro ls
    induction ls with
    | nil => rfl
    | cons line rest ih =>
      by_cases hs : strip line = ""
      · have hwf : wellFormedOrder line = none := by
          unfold wellFormedOrder
          rw [hs]
          rfl
        unfold ordersLoop
        rw [if_pos hs]
        simp [List.filterMap_cons, hwf, ih]
      · unfold ordersLoop
        rw [if_neg hs]
        cases htok : tokens (strip line) with
        | nil =>
          exfalso
          rw [tokens_strip] at htok
          exact hs ((tokens_eq_nil_iff_strip line).mp htok)
        | cons sym more =>
          cases more with
          | nil =>
            have hwf : wellFormedOrder line = none := by
              unfold wellFormedOrder
              rw [htok]
              rfl
            simp [List.filterMap_cons, hwf, ih]
          | cons priceStr more' =>
            have hwf : wellFormedOrder line
                = (parse_float priceStr).map (fun q => (upper sym, q)) := by
              unfold wellFormedOrder
              rw [htok]
              show (if 2 ≤ (sym :: priceStr :: more').length then
                  (parse_float ((sym :: priceStr :: more').getD 1 "")).map
                    (fun q => (upper ((sym :: priceStr :: more').getD 0 ""), q))
                else none) = (parse_float priceStr).map (fun q => (upper sym, q))
              rw [if_pos (by simp only [List.length_cons]; omega)]
              rfl
            cases hp : parse_float priceStr with
            | none => simp [List.filterMap_cons, hwf, hp, ih]
            | some price => simp [List.filterMap_cons, hwf, hp, ih]
  cases lines with
  | nil => exact ⟨rfl, rfl⟩
  | cons l ls => exact ⟨hloop (l :: ls), rfl⟩

/-! ### Claim C6 -/

/-- Counterexample to C6 as stated: on `"bbauto xMSFT AAPL AAPL"` the code
returns the list `["AAPL", "AAPL"]` — duplicated, so not "deduplicated" —
and its symbol set `{AAPL}` differs from the claim's reference set
`{MSFT, AAPL}` (the maximal uppercase run `MSFT` inside the word `xMSFT`
has no regex word boundary before `M`, so `re.findall` never matches it). -/
theorem extract_ticker_symbols_counterexample :
    extract_ticker_symbols "bbauto xMSFT AAPL AAPL" = ["AAPL", "AAPL"] ∧
    ¬ (extract_ticker_symbols "bbauto xMSFT AAPL AAPL").Nodup ∧
    (extract_ticker_symbols "bbauto xMSFT AAPL AAPL").toFinset
      ≠ extractClaimSpec "bbauto xMSFT AAPL AAPL" := by
  decide

/-- Claim C6 (amended): extraction returns the empty list for every text
not containing "bbauto" case-insensitively; for texts containing it, it
returns — in text order, duplicates preserved — exactly the maximal
word-character runs (letters, digits, underscore) that consist of 1–5
uppercase letters and are not stopwords.  Runs adjacent to other word
characters (e.g. `MSFT` inside `xMSFT`) are not extracted, and the result
is a list, not a deduplicated set. -/
theorem extract_ticker_symbols_amended (text : String) :
    (containsSub (lower text) "bbauto" = false → extract_ticker_symbols text = []) ∧
    (containsSub (lower text) "bbauto" = true →
      extract_ticker_symbols text
        = ((wordRuns text.toList).map String.mk).filter
            (fun t => tickerMatches t.toList && !excluded_words.contains t)) := by
  constructor
  · intro h
    unfold extract_ticker_symbols
    rw [h]
    rfl
  · intro h
    unfold extract_ticker_symbols
    rw [h]
    show (((wordRuns text.toList).filter tickerMatches).map String.mk).filter
          (fun t => !excluded_words.contains t)
        = ((wordRuns text.toList).map String.mk).filter
            (fun t => tickerMatches t.toList && !excluded_words.contains t)
    induction wordRuns text.toList with
    | nil => rfl
    | cons r rest ih =>
      by_cases hp : tickerMatches r
      · have hp' : tickerMatches (String.mk r).toList = true := hp
        by_cases hq : String.mk r ∈ excluded_words
        · simp [List.filter_cons, hp, hp', hq, String.toList]
          simpa [String.toList] using ih
        · simp [List.filter_cons, hp, hp', hq, String.toList]
          simpa [String.toList] using ih
      · have hp' : tickerMatches (String.mk r).toList = false := by
          simpa using hp
        simp [List.filter_cons, hp, hp', String.toList]
        simpa [String.toList] using ih

/-- Witness for C6 (amended), exercising the no-marker gate. -/
theorem extract_ticker_symbols_amended_witness :
    containsSub (lower "quiet day AAPL") "bbauto" = false ∧
    extract_ticker_symbols "quiet day AAPL" = [] :=
  ⟨by decide, (extract_ticker_symbols_amended "quiet day AAPL").1 (by decide)⟩

/-! ### Claim C7 -/

theorem map_strip_fixed (l : List String) (h : ∀ x ∈ l, strip x = x) :
    l.map strip = l := by
  induction l with
  | nil => rfl
  | cons a t ih =>
    rw [List.map_cons, h a (by simp), ih (fun x hx => h x (by simp [hx]))]

/-- Claim C7: the append-unique merge is idempotent — for every prior file
content and every input batch of symbols (whitespace-free, as all symbols
are), applying `update_scanner_file` twice with the same symbols yields the
same file content as applying it once — and the resulting file lists each
entry at most once. -/
theorem update_scanner_file_idempotent (content tickers : List String)
    (h : ∀ t ∈ tickers, strip t = t) :
    update_scanner_file (update_scanner_file content tickers) tickers
      = update_scanner_file content tickers ∧
    (update_scanner_file content tickers).Nodup := by
  unfold update_scanner_file
  set S := (content.map strip).toFinset ∪ tickers.toFinset with hS
  constructor
  · have hfix : ∀ x ∈ S.sort (· ≤ ·), strip x = x := by
      intro x hx
      have hxS : x ∈ S := (Finset.mem_sort _).mp hx
      rw [hS] at hxS
      rcases Finset.mem_union.mp hxS with hx1 | hx2
      · rcases List.mem_map.mp (List.mem_toFinset.mp hx1) with ⟨y, _, rfl⟩
        exact strip_idem y
      · exact h x (List.mem_toFinset.mp hx2)
    have hmap : (S.sort (· ≤ ·)).map strip = S.sort (· ≤ ·) := map_strip_fixed _ hfix
    rw [hmap, Finset.sort_toFinset]
    have hsub : tickers.toFinset ⊆ S := by
      rw [hS]
      exact Finset.subset_union_right
    rw [Finset.union_eq_left.mpr hsub]
  · exact Finset.sort_nodup _ _

/-- Witness for C7 at a concrete file and symbol batch. -/
theorem update_scanner_file_idempotent_witness :
    (∀ t ∈ ["MSFT"], strip t = t) ∧
    (update_scanner_file (update_scanner_file ["x AAPL", ""] ["MSFT"]) ["MSFT"]
        = update_scanner_file ["x AAPL", ""] ["MSFT"] ∧
      (update_scanner_file ["x AAPL", ""] ["MSFT"]).Nodup) :=
  ⟨by decide, update_scanner_file_idempotent ["x AAPL", ""] ["MSFT"] (by decide)⟩

/-! ### Claim C8 -/

/-- Counterexample to C8 as stated: removing `"AAPL"` from the file
`["", "MSFT 10"]` also deletes the blank line, although a blank line has no
first token and so matches no symbol — the claim says exactly the matching
lines are removed, but the source's filter (`line.strip() and ...`) drops
blank lines too. -/
theorem remove_ticker_counterexample :
    remove_ticker_from_scanner ["", "MSFT 10"] "AAPL" = ["MSFT 10"] ∧
    removeSymbolClaim ["", "MSFT 10"] "AAPL" = ["", "MSFT 10"] ∧
    remove_ticker_from_scanner ["", "MSFT 10"] "AAPL"
      ≠ removeSymbolClaim ["", "MSFT 10"] "AAPL" := by
  decide

/-- Claim C8 (amended): the rewritten queue contains exactly the prior
non-blank lines whose first whitespace-delimited token does not match the
symbol case-insensitively, unchanged and in their original order (a
sublist of the prior lines); every line whose first token matches — and
additionally every blank line — is removed. -/
theorem remove_ticker_amended (lines : List String) (symbol : String) :
    remove_ticker_from_scanner lines symbol = removeSymbolAmended lines symbol ∧
    (remove_ticker_from_scanner lines symbol).Sublist lines := by
  have hpred : ∀ l ∈ lines,
      (!(strip l == "") && (upper ((tokens (strip l)).getD 0 "") != upper symbol))
        = (match (tokens l).head? with
           | some tok => upper tok != upper symbol
           | none => false) := by
    intro l _
    cases htok : tokens l with
    | nil =>
      have hstrip : strip l = "" := (tokens_eq_nil_iff_strip l).mp htok
      simp [hstrip]
    | cons tok rest =>
      have htoks : tokens (strip l) = tok :: rest := by
        rw [tokens_strip]
        exact htok
      have hne : ¬ strip l = "" := by
        intro hempty
        have hnil : tokens l = [] := (tokens_eq_nil_iff_strip l).mpr hempty
        rw [htok] at hnil
        cases hnil
      have hbeq : (strip l == "") = false := by
        simpa using hne
      rw [htoks, hbeq]
      rfl
  constructor
  · unfold remove_ticker_from_scanner removeSymbolAmended
    exact List.filter_congr hpred
  · exact List.filter_sublist _

end PortfolioManager
